import Mathlib

/-!
Verification of the graph execution engine (executor, run store, models)
of the CodeX workflow repository, as a shallow embedding in Lean 4.

Python dictionaries are modelled as insertion-ordered association lists,
Python values flowing through the state bag as the inductive `Value`,
raising nodes / KeyError paths as `Except String`, and wall-clock
timestamps as an abstract tick counter carried by the store. Store
snapshots are by value: the aliasing of the live state dict into the
store (so that a later in-place mutation would also be visible in the
stored snapshot) is not modelled, and no claim observes it.
-/

set_option maxHeartbeats 1000000

namespace Engine

/-- A Python value as it can appear in the open state mapping. -/
inductive Value where
  | vNone : Value
  | vBool : Bool → Value
  | vInt : Int → Value
  | vStr : String → Value
  | vList : List Value → Value
  | vDict : List (String × Value) → Value

/-- Python truthiness of a value (`bool(v)`). -/
def truthy : Value → Bool
  | .vNone => false
  | .vBool b => b
  | .vInt n => n != 0
  | .vStr s => s ≠ ""
  | .vList l => !l.isEmpty
  | .vDict d => !d.isEmpty

/-- Lookup in an insertion-ordered association list (`d.get(k)` / `k in d`). -/
def alGet {α : Type} (l : List (String × α)) (k : String) : Option α :=
  match l with
  | [] => none
  | (k1, v) :: rest => if k1 = k then some v else alGet rest k

/-- Update in place or append (`d[k] = v` on a Python dict). -/
def alSet {α : Type} (l : List (String × α)) (k : String) (v : α) : List (String × α) :=
  match l with
  | [] => [(k, v)]
  | (k1, v1) :: rest => if k1 = k then (k1, v) :: rest else (k1, v1) :: alSet rest k v

/-- Removal of a key (`d.pop(k, ...)` dropping the entry). -/
def alErase {α : Type} (l : List (String × α)) (k : String) : List (String × α) :=
  l.filter (fun p => p.1 ≠ k)

/-- The open state bag threaded through the graph (`State = Dict[str, Any]`). -/
abbrev State := List (String × Value)

/-- A node is a step function over the state; a node body may raise
(`NodeCallable = Callable[[State], State]`, failures as `.error`). -/
abbrev Node := State → Except String State

/-- Log entry for one executed step (`ExecutionLogEntry`); wall-clock
`duration_ms` is abstracted to a constant, as timing is not modellable. -/
structure ExecutionLogEntry where
  step : Nat
  node_id : Value
  duration_ms : Nat
  summary : String

/-- In-memory representation of a workflow graph (`Graph` dataclass). -/
structure Graph where
  id : String
  nodes : List (String × Node)
  edges : List (String × Option String)
  start_node_id : String
  max_steps : Nat

/-- One stored run record (the dict inserted by `create_run`). -/
structure RunRecord where
  id : String
  graph_id : String
  state : State
  log : List ExecutionLogEntry
  status : String
  created_at : Nat
  updated_at : Nat

/-- The process-wide `RUNS` mapping together with a clock supplying
`datetime.utcnow()` timestamps as abstract ticks. -/
structure Store where
  runs : List (String × RunRecord)
  clock : Nat

/-- The empty store at process start. -/
def store0 : Store := ⟨[], 0⟩

/-- Python `str()` of a value as used by the summary f-strings; nested
containers are rendered structurally (quoting of nested reprs abstracted). -/
def fmtValue : Value → String
  | .vNone => "None"
  | .vBool b => if b then "True" else "False"
  | .vInt n => toString n
  | .vStr s => s
  | .vList l => "[" ++ String.intercalate ", " (fmtList l) ++ "]"
  | .vDict d => "\x7b" ++ String.intercalate ", " (fmtDict d) ++ "\x7d"
where
  fmtList : List Value → List String
    | [] => []
    | v :: rest => fmtValue v :: fmtList rest
  fmtDict : List (String × Value) → List String
    | [] => []
    | (k, v) :: rest => (k ++ ": " ++ fmtValue v) :: fmtDict rest

/-- Faithful translation of `_summarise_state`: builds the comma-joined
parts list; a non-dict `complexity_report` raises (Python `AttributeError`
on `.get`), hence the `Except`. -/
def summarise_state (state : State) : Except String String :=
  let parts0 : List String := []
  let parts1 := match alGet state "quality_score" with
    | some v => parts0 ++ ["quality_score=" ++ fmtValue v]
    | none => parts0
  let parts2 := match alGet state "iteration" with
    | some v => parts1 ++ ["iteration=" ++ fmtValue v]
    | none => parts1
  let parts3 := match alGet state "issues" with
    | some (.vList l) => parts2 ++ ["issues=" ++ toString l.length]
    | _ => parts2
  match alGet state "complexity_report" with
  | none =>
    let joined := String.intercalate ", " parts3
    .ok (if joined = "" then "state updated" else joined)
  | some (.vDict cr) =>
    let parts4 := match alGet cr "estimated_complexity" with
      | some .vNone => parts3
      | some v => parts3 ++ ["complexity=" ++ fmtValue v]
      | none => parts3
    let parts5 := match alGet cr "function_count" with
      | some .vNone => parts4
      | some v => parts4 ++ ["functions=" ++ fmtValue v]
      | none => parts4
    let joined := String.intercalate ", " parts5
    .ok (if joined = "" then "state updated" else joined)
  | some _ => .error "AttributeError: complexity_report has no attribute get"

/-- Translation of `create_run`: fresh id from the current table size,
record with status `created`, empty log, the given initial state, and the
same timestamp for created/updated. -/
def create_run (graph_id : String) (initial_state : State) (st : Store) : String × Store :=
  let run_id := "run_" ++ Nat.repr (st.runs.length + 1)
  let now := st.clock
  let record : RunRecord :=
    { id := run_id, graph_id := graph_id, state := initial_state, log := []
      status := "created", created_at := now, updated_at := now }
  (run_id, { runs := alSet st.runs run_id record, clock := st.clock + 1 })

/-- Translation of `update_run`: raises KeyError for an unknown run id,
otherwise overwrites state, log and status and refreshes the timestamp. -/
def update_run (run_id : String) (state : State) (log : List ExecutionLogEntry)
    (status : String) (st : Store) : Except String Store :=
  match alGet st.runs run_id with
  | none => .error ("KeyError: Run " ++ run_id ++ " not found")
  | some r =>
    .ok { runs := alSet st.runs run_id
            { r with state := state, log := log, status := status, updated_at := st.clock }
          clock := st.clock + 1 }

/-- The `if run_id is not None: update_run(...)` guard of the executor. -/
def updateRunOpt (runId : Option String) (state : State) (log : List ExecutionLogEntry)
    (status : String) (st : Store) : Except String Store :=
  match runId with
  | none => .ok st
  | some rid => update_run rid state log status st

/-- Lookup `graph.nodes[current]`; only a string key can be present. -/
def nodesGet (g : Graph) : Value → Option Node
  | .vStr s => alGet g.nodes s
  | _ => none

/-- Lookup `graph.edges.get(current)`: absent key and a stored `None`
both yield no successor. -/
def edgesGet (g : Graph) : Value → Option String
  | .vStr s => (alGet g.edges s).getD none
  | _ => none

/-- Python `state.get("_finished")` truthiness test. -/
def finishedFlag (s : State) : Bool :=
  truthy ((alGet s "_finished").getD .vNone)

/-- Python `state.pop("_next_node", None)`: removes the key when present;
a stored `None` counts as no override (the executor tests `is not None`). -/
def popNextNode (s : State) : State × Option Value :=
  match alGet s "_next_node" with
  | none => (s, none)
  | some .vNone => (alErase s "_next_node", none)
  | some v => (alErase s "_next_node", some v)

/-- The copy-and-seed prologue of `run_graph`:
`state = dict(initial_state); state.setdefault("iteration", 0)`. -/
def seedIteration (initial_state : State) : State :=
  match alGet initial_state "iteration" with
  | some _ => initial_state
  | none => initial_state ++ [("iteration", .vInt 0)]

/-- The while loop of `run_graph`. `fuel` is the remaining step budget
(`graph.max_steps - step`, so the guard `step < max_steps` is `fuel > 0`)
and `stepsDone` the number of completed iterations, used for the 1-based
log step numbers. Returns the final state, log and status, or the raised
exception, together with the store as updated mid-flight. -/
def runLoop (g : Graph) (runId : Option String) :
    Nat → Nat → State → Option Value → List ExecutionLogEntry → Store →
    Except String (State × List ExecutionLogEntry × String) × Store
  | _, _, state, none, log, store => (.ok (state, log, "completed"), store)
  | 0, _, state, some _, log, store => (.ok (state, log, "max_steps_reached"), store)
  | fuel + 1, stepsDone, state, some cur, log, store =>
    match nodesGet g cur with
    | none => (.error ("KeyError: " ++ fmtValue cur), store)
    | some node =>
      match node state with
      | .error e => (.error e, store)
      | .ok s1 =>
        match summarise_state s1 with
        | .error e => (.error e, store)
        | .ok summ =>
          let entry : ExecutionLogEntry :=
            { step := stepsDone + 1, node_id := cur, duration_ms := 0, summary := summ }
          let log1 := log ++ [entry]
          match updateRunOpt runId s1 log1 "running" store with
          | .error e => (.error e, store)
          | .ok store1 =>
            if finishedFlag s1 then
              (.ok (s1, log1, "completed"), store1)
            else
              let popped := popNextNode s1
              let current1 : Option Value :=
                match popped.2 with
                | some v => some v
                | none => (edgesGet g cur).map Value.vStr
              runLoop g runId fuel (stepsDone + 1) popped.1 current1 log1 store1

/-- Translation of `run_graph`: copy/seed the state, run the step loop
from the start node, then perform the final unconditional persist and
return `(state, log)`. An exception from a node, a dangling node lookup
or an unknown run id propagates to the caller. -/
def run_graph (g : Graph) (initial_state : State) (runId : Option String) (store : Store) :
    Except String (State × List ExecutionLogEntry) × Store :=
  let state := seedIteration initial_state
  match runLoop g runId g.max_steps 0 state (some (.vStr g.start_node_id)) [] store with
  | (.error e, st1) => (.error e, st1)
  | (.ok (s, log, status), st1) =>
    match updateRunOpt runId s log status st1 with
    | .error e => (.error e, st1)
    | .ok st2 => (.ok (s, log), st2)

/-- Abbreviation for the log entry the loop body constructs. -/
def mkEntry (step : Nat) (cur : Value) (summ : String) : ExecutionLogEntry :=
  { step := step, node_id := cur, duration_ms := 0, summary := summ }

/-- The follower the loop body selects after a non-breaking iteration. -/
def nextCurrent (g : Graph) (cur : Value) (s1 : State) : Option Value :=
  match (popNextNode s1).2 with
  | some v => some v
  | none => (edgesGet g cur).map Value.vStr
/-- The default successor function `graph.edges.get(c)`, with a stored
`None` and an absent key both meaning "stop". -/
def edgeStep (g : Graph) (c : String) : Option String :=
  (alGet g.edges c).getD none

/-- Node identifiers visited when following only the static edge table
from `c` with `fuel` invocations left. -/
def chainIds (g : Graph) : String → Nat → List String
  | _, 0 => []
  | c, fuel + 1 =>
    c :: (match edgeStep g c with
      | none => []
      | some c2 => chainIds g c2 fuel)

/-- Whether the static edge chain from `c` exhausts (reaches a node with
no outgoing edge) within `fuel` invocations. -/
def chainStops (g : Graph) : String → Nat → Bool
  | _, 0 => false
  | c, fuel + 1 =>
    match edgeStep g c with
    | none => true
    | some c2 => chainStops g c2 fuel
/-- Numeric value of a decimal digit character. -/
def charDigit (c : Char) : Nat := c.toNat - 48

/-- Decode a decimal digit string; left inverse of `Nat.toDigits 10`. -/
def decodeDigits (cs : List Char) : Nat :=
  cs.foldl (fun a c => a * 10 + charDigit c) 0
/-- The run identifier minted for the `n`-th created run. -/
def mkRunId (n : Nat) : String := "run_" ++ Nat.repr n
/-- One mutation of the run store. `create_run` and `update_run` are the
only mutators in the codebase; `run_graph` writes only through
`update_run`, and `get_run` does not mutate. An `update_run` on an
unknown id raises and leaves the store unchanged. -/
inductive StoreOp where
  | createOp (graph_id : String) (initial : State) : StoreOp
  | updateOp (run_id : String) (state : State) (log : List ExecutionLogEntry)
      (status : String) : StoreOp

/-- Effect of one store operation. -/
def applyOp (st : Store) : StoreOp → Store
  | .createOp gid init => (create_run gid init st).2
  | .updateOp rid s l stat =>
    match update_run rid s l stat st with
    | .ok st2 => st2
    | .error _ => st

/-- Effect of a whole history of store operations. -/
def applyOps (ops : List StoreOp) (st : Store) : Store := ops.foldl applyOp st

/-- Identifiers handed out by the `create_run` calls of a history. -/
def createdIds (st : Store) : List StoreOp → List String
  | [] => []
  | .createOp gid init :: rest =>
    (create_run gid init st).1 :: createdIds (applyOp st (.createOp gid init)) rest
  | .updateOp rid s l stat :: rest => createdIds (applyOp st (.updateOp rid s l stat)) rest

/-- The keys of the run table. -/
def keysOf (st : Store) : List String := st.runs.map Prod.fst

/-- Lifetime invariant of the run table: its keys are exactly
`run_1 .. run_n` in creation order. -/
def storeInv (st : Store) : Prop :=
  keysOf st = (List.range' 1 st.runs.length).map mkRunId

/-! ### Concrete nodes, graphs and stores used as test vehicles -/

/-- A node that writes a data key and touches no control key. -/
def exNodeX : Node := fun s => .ok (alSet s "x" (.vInt 1))

/-- A node that signals successful termination. -/
def exNodeFinish : Node := fun s => .ok (alSet s "_finished" (.vBool true))

/-- A node that always routes back to itself via the override. -/
def exNodeLoop : Node := fun s => .ok (alSet s "_next_node" (.vStr "loop"))

/-- A node that sets both control keys at once. -/
def exNodeBoth : Node := fun s =>
  .ok (alSet (alSet s "_finished" (.vBool true)) "_next_node" (.vStr "b"))

/-- A node whose invocation raises. -/
def exNodeFail : Node := fun _ => .error "RuntimeError: node failure"

/-- Scenario A of the specification. -/
def exGraphA : Graph :=
  { id := "gA", nodes := [("a", exNodeX), ("b", exNodeFinish)],
    edges := [("a", some "b"), ("b", none)], start_node_id := "a", max_steps := 10 }

/-- Scenario B of the specification (self-loop under a budget of 3). -/
def exGraphB : Graph :=
  { id := "gB", nodes := [("loop", exNodeLoop)], edges := [("loop", none)],
    start_node_id := "loop", max_steps := 3 }

/-- A graph whose start node sets `_finished` and `_next_node` together. -/
def exGraphC : Graph :=
  { id := "gC", nodes := [("a", exNodeBoth), ("b", exNodeX)],
    edges := [("a", some "b"), ("b", none)], start_node_id := "a", max_steps := 10 }

/-- A two-node graph whose nodes never touch control keys. -/
def exGraphD : Graph :=
  { id := "gD", nodes := [("a", exNodeX), ("b", exNodeX)],
    edges := [("a", some "b"), ("b", none)], start_node_id := "a", max_steps := 10 }

/-- A one-node graph that finishes on its first step. -/
def exGraphE : Graph :=
  { id := "gE", nodes := [("a", exNodeFinish)], edges := [("a", none)],
    start_node_id := "a", max_steps := 5 }

/-- A one-node graph whose node raises. -/
def exGraphF : Graph :=
  { id := "gF", nodes := [("a", exNodeFail)], edges := [("a", none)],
    start_node_id := "a", max_steps := 5 }

/-- Store with one freshly created run for scenario B. -/
def exStoreB : Store := (create_run "gB" [] store0).2

/-- Store with one freshly created run for the failing graph. -/
def exStoreF : Store := (create_run "gF" [] store0).2

/-- The final state of scenario A run from the empty state. -/
def exFsA : State := [("iteration", .vInt 0), ("x", .vInt 1), ("_finished", .vBool true)]

/-- The log of scenario A run from the empty state. -/
def exLogA : List ExecutionLogEntry :=
  [⟨1, .vStr "a", 0, "iteration=0"⟩, ⟨2, .vStr "b", 0, "iteration=0"⟩]

/-- The final state of the control-key-free graph `exGraphD` run from
the empty state. -/
def exFsD : State := [("iteration", .vInt 0), ("x", .vInt 1)]

/-- The log of the control-key-free graph `exGraphD` run from the empty
state. -/
def exLogD : List ExecutionLogEntry :=
  [⟨1, .vStr "a", 0, "iteration=0"⟩, ⟨2, .vStr "b", 0, "iteration=0"⟩]

/-- The final state of `exGraphA` run from a state already flagged
`_finished`. -/
def exFs10 : State := [("_finished", .vBool true), ("iteration", .vInt 0), ("x", .vInt 1)]

/-- The log of `exGraphA` run from a state already flagged `_finished`. -/
def exLog10 : List ExecutionLogEntry := [⟨1, .vStr "a", 0, "iteration=0"⟩]

/-- The record `create_run` inserts into the table. -/
def createdRecord (gid : String) (init : State) (st : Store) : RunRecord :=
  { id := "run_" ++ Nat.repr (st.runs.length + 1), graph_id := gid, state := init,
    log := [], status := "created", created_at := st.clock, updated_at := st.clock }

/-! ### Association-list lemmas -/

theorem alGet_alSet {α : Type} (l : List (String × α)) (k k2 : String) (v : α) :
    alGet (alSet l k v) k2 = if k = k2 then some v else alGet l k2 := by
  induction l with
  | nil =>
    by_cases h : k = k2 <;> simp [alSet, alGet, h]
  | cons p rest ih =>
    obtain ⟨k1, v1⟩ := p
    by_cases h1 : k1 = k
    · subst h1
      by_cases h2 : k1 = k2 <;> simp [alSet, alGet, h2]
    · have h1x : k ≠ k1 := fun h => h1 h.symm
      by_cases h2 : k1 = k2
      · subst h2
        simp [alSet, alGet, h1, h1x]
      · simp [alSet, alGet, h1, h2, ih]

theorem alErase_cons {α : Type} (k1 : String) (v1 : α) (rest : List (String × α)) (k : String) :
    alErase ((k1, v1) :: rest) k =
      if k1 = k then alErase rest k else (k1, v1) :: alErase rest k := by
  by_cases h : k1 = k <;> simp [alErase, List.filter_cons, h]

theorem alGet_alErase {α : Type} (l : List (String × α)) (k k2 : String) :
    alGet (alErase l k) k2 = if k2 = k then none else alGet l k2 := by
  induction l with
  | nil => by_cases h : k2 = k <;> simp [alErase, alGet, h]
  | cons p rest ih =>
    obtain ⟨k1, v1⟩ := p
    rw [alErase_cons]
    by_cases h1 : k1 = k
    · subst h1
      rw [if_pos rfl, ih]
      by_cases h2 : k2 = k1
      · simp [h2]
      · have h2x : k1 ≠ k2 := fun h => h2 h.symm
        simp [h2, alGet, h2x]
    · rw [if_neg h1]
      by_cases h2 : k1 = k2
      · subst h2
        simp [alGet, h1]
      · simp [alGet, h2, ih]

theorem alGet_append {α : Type} (l1 l2 : List (String × α)) (k : String) :
    alGet (l1 ++ l2) k = match alGet l1 k with
      | some v => some v
      | none => alGet l2 k := by
  induction l1 with
  | nil => simp [alGet]
  | cons p rest ih =>
    obtain ⟨k1, v1⟩ := p
    by_cases h : k1 = k <;> simp [alGet, h, ih]

theorem map_fst_alSet_of_mem {α : Type} (l : List (String × α)) (k : String) (v r : α)
    (h : alGet l k = some r) : (alSet l k v).map Prod.fst = l.map Prod.fst := by
  induction l with
  | nil => simp [alGet] at h
  | cons p rest ih =>
    obtain ⟨k1, v1⟩ := p
    by_cases h1 : k1 = k
    · simp [alSet, h1]
    · simp [alGet, h1] at h
      simp [alSet, h1, ih h]

theorem alSet_of_not_mem {α : Type} (l : List (String × α)) (k : String) (v : α)
    (h : alGet l k = none) : alSet l k v = l ++ [(k, v)] := by
  induction l with
  | nil => simp [alSet]
  | cons p rest ih =>
    obtain ⟨k1, v1⟩ := p
    by_cases h1 : k1 = k
    · subst h1
      simp [alGet] at h
    · simp [alGet, h1] at h
      simp [alSet, h1, ih h]

/-! ### Executor loop lemmas -/

/-- Inversion of one successful loop iteration. -/
theorem runLoop_succ_ok (g : Graph) (r : Option String) (fuel n : Nat) (state : State)
    (cur : Value) (log : List ExecutionLogEntry) (st : Store) (fs : State)
    (log2 : List ExecutionLogEntry) (status : String) (st2 : Store)
    (h : runLoop g r (fuel + 1) n state (some cur) log st = (.ok (fs, log2, status), st2)) :
    ∃ node s1 summ st1,
      nodesGet g cur = some node ∧ node state = .ok s1 ∧ summarise_state s1 = .ok summ ∧
      updateRunOpt r s1 (log ++ [mkEntry (n + 1) cur summ]) "running" st = .ok st1 ∧
      ((finishedFlag s1 = true ∧ fs = s1 ∧ log2 = log ++ [mkEntry (n + 1) cur summ] ∧
        status = "completed" ∧ st2 = st1) ∨
       (finishedFlag s1 = false ∧
        runLoop g r fuel (n + 1) (popNextNode s1).1 (nextCurrent g cur s1)
          (log ++ [mkEntry (n + 1) cur summ]) st1 = (.ok (fs, log2, status), st2))) := by
  simp only [runLoop] at h
  cases hnode : nodesGet g cur with
  | none => rw [hnode] at h; simp at h
  | some node =>
    rw [hnode] at h
    simp only at h
    cases hstep : node state with
    | error e => rw [hstep] at h; simp at h
    | ok s1 =>
      rw [hstep] at h
      simp only at h
      cases hsumm : summarise_state s1 with
      | error e => rw [hsumm] at h; simp at h
      | ok summ =>
        rw [hsumm] at h
        simp only at h
        cases hupd : updateRunOpt r s1 (log ++ [mkEntry (n + 1) cur summ]) "running" st with
        | error e => rw [show (⟨n + 1, cur, 0, summ⟩ : ExecutionLogEntry) = mkEntry (n + 1) cur summ from rfl, hupd] at h; simp at h
        | ok st1 =>
          rw [show (⟨n + 1, cur, 0, summ⟩ : ExecutionLogEntry) = mkEntry (n + 1) cur summ from rfl, hupd] at h
          simp only at h
          by_cases hf : finishedFlag s1
          · rw [if_pos hf] at h
            simp only [Prod.mk.injEq, Except.ok.injEq] at h
            exact ⟨node, s1, summ, st1, rfl, hstep, hsumm, hupd,
              .inl ⟨hf, h.1.1.symm, h.1.2.1.symm, h.1.2.2.symm, h.2.symm⟩⟩
          · rw [if_neg hf] at h
            exact ⟨node, s1, summ, st1, rfl, hstep, hsumm, hupd,
              .inr ⟨by simp [hf], h⟩⟩

/-- A successful loop run only ever appends to the incoming log. -/
theorem runLoop_log_extends (g : Graph) (r : Option String) :
    ∀ fuel n state cur log st fs log2 status st2,
      runLoop g r fuel n state cur log st = (.ok (fs, log2, status), st2) →
      ∃ tail, log2 = log ++ tail := by
  intro fuel
  induction fuel with
  | zero =>
    intro n state cur log st fs log2 status st2 h
    cases cur <;> simp only [runLoop, Prod.mk.injEq, Except.ok.injEq] at h <;>
      exact ⟨[], by simp [h.1.2.1.symm]⟩
  | succ fuel ih =>
    intro n state cur log st fs log2 status st2 h
    cases cur with
    | none =>
      simp only [runLoop, Prod.mk.injEq, Except.ok.injEq] at h
      exact ⟨[], by simp [h.1.2.1.symm]⟩
    | some c =>
      obtain ⟨node, s1, summ, st1, _, _, _, _, hbr⟩ :=
        runLoop_succ_ok _ _ _ _ _ _ _ _ _ _ _ _ h
      cases hbr with
      | inl hb => exact ⟨[mkEntry (n + 1) c summ], hb.2.2.1⟩
      | inr hb =>
        obtain ⟨tail, ht⟩ := ih _ _ _ _ _ _ _ _ _ hb.2
        exact ⟨mkEntry (n + 1) c summ :: tail, by simp [ht]⟩

/-- The loop executes its body at most `fuel` more times: the log grows by
at most `fuel` entries. -/
theorem runLoop_length_le (g : Graph) (r : Option String) :
    ∀ fuel n state cur log st fs log2 status st2,
      runLoop g r fuel n state cur log st = (.ok (fs, log2, status), st2) →
      log2.length ≤ log.length + fuel := by
  intro fuel
  induction fuel with
  | zero =>
    intro n state cur log st fs log2 status st2 h
    cases cur <;> simp only [runLoop, Prod.mk.injEq, Except.ok.injEq] at h <;>
      simp [h.1.2.1.symm]
  | succ fuel ih =>
    intro n state cur log st fs log2 status st2 h
    cases cur with
    | none =>
      simp only [runLoop, Prod.mk.injEq, Except.ok.injEq] at h
      simp [h.1.2.1.symm]
    | some c =>
      obtain ⟨node, s1, summ, st1, _, _, _, _, hbr⟩ :=
        runLoop_succ_ok _ _ _ _ _ _ _ _ _ _ _ _ h
      cases hbr with
      | inl hb =>
        rw [hb.2.2.1]
        simp
      | inr hb =>
        have := ih _ _ _ _ _ _ _ _ _ hb.2
        simp at this
        omega

/-- Step numbering invariant: if the incoming log is numbered `1..n`,
every successful loop result is numbered `1..N`. -/
theorem runLoop_steps (g : Graph) (r : Option String) :
    ∀ fuel n state cur log st fs log2 status st2,
      n = log.length →
      log.map (fun e => e.step) = List.range' 1 n →
      runLoop g r fuel n state cur log st = (.ok (fs, log2, status), st2) →
      log2.map (fun e => e.step) = List.range' 1 log2.length := by
  intro fuel
  induction fuel with
  | zero =>
    intro n state cur log st fs log2 status st2 hn hsteps h
    cases cur <;> simp only [runLoop, Prod.mk.injEq, Except.ok.injEq] at h <;>
      rw [h.1.2.1.symm, hsteps, hn]
  | succ fuel ih =>
    intro n state cur log st fs log2 status st2 hn hsteps h
    cases cur with
    | none =>
      simp only [runLoop, Prod.mk.injEq, Except.ok.injEq] at h
      rw [h.1.2.1.symm, hsteps, hn]
    | some c =>
      obtain ⟨node, s1, summ, st1, _, _, _, _, hbr⟩ :=
        runLoop_succ_ok _ _ _ _ _ _ _ _ _ _ _ _ h
      have hgrow : (log ++ [mkEntry (n + 1) c summ]).map (fun e => e.step) =
          List.range' 1 (n + 1) := by
        rw [List.map_append, hsteps, List.range'_1_concat]
        simp [mkEntry, Nat.add_comm]
      cases hbr with
      | inl hb =>
        rw [hb.2.2.1, hgrow]
        congr 1
        simp [hn]
      | inr hb =>
        exact ih _ _ _ _ _ _ _ _ _ (by simp [hn]) hgrow hb.2

/-- After popping, the `_next_node` key is gone (also when it was absent). -/
theorem popNextNode_get (s : State) : alGet (popNextNode s).1 "_next_node" = none := by
  unfold popNextNode
  cases hg : alGet s "_next_node" with
  | none => simpa using hg
  | some v => cases v <;> simp [alGet_alErase]

/-- A successful `nodesGet` means the current pointer is a string naming
a node of the graph. -/
theorem nodesGet_some (g : Graph) (c : Value) (node : Node)
    (h : nodesGet g c = some node) : ∃ s, c = .vStr s ∧ alGet g.nodes s = some node := by
  cases c with
  | vStr s => exact ⟨s, rfl, h⟩
  | vNone => simp [nodesGet] at h
  | vBool b => simp [nodesGet] at h
  | vInt n => simp [nodesGet] at h
  | vList l => simp [nodesGet] at h
  | vDict d => simp [nodesGet] at h

/-- A single (optional) store update with a given status leaves any run
either untouched or carrying exactly that status. -/
theorem updateRunOpt_status (r : Option String) (rid : String) (s : State)
    (log : List ExecutionLogEntry) (status : String) (st st2 : Store) (r0 : RunRecord)
    (h : updateRunOpt r s log status st = .ok st2) (hget : alGet st.runs rid = some r0) :
    ∃ r2, alGet st2.runs rid = some r2 ∧ (r2.status = status ∨ r2.status = r0.status) := by
  cases r with
  | none =>
    simp only [updateRunOpt, Except.ok.injEq] at h
    exact ⟨r0, h ▸ hget, .inr rfl⟩
  | some rid2 =>
    simp only [updateRunOpt, update_run] at h
    cases hg2 : alGet st.runs rid2 with
    | none => rw [hg2] at h; simp at h
    | some rr =>
      rw [hg2] at h
      simp only [Except.ok.injEq] at h
      subst h
      by_cases he : rid2 = rid
      · subst he
        exact ⟨{ rr with state := s, log := log, status := status, updated_at := st.clock },
          by simp [alGet_alSet], .inl rfl⟩
      · refine ⟨r0, ?_, .inr rfl⟩
        simp [alGet_alSet, he, hget]

/-- Store invariant of the loop: a run present on entry is still present
on exit (error or success), and its status is either unchanged or
`"running"` — the loop never persists a terminal status itself. -/
theorem runLoop_store_status (g : Graph) (r : Option String) (rid : String) :
    ∀ fuel n state cur log st res st2,
      runLoop g r fuel n state cur log st = (res, st2) →
      ∀ r0, alGet st.runs rid = some r0 →
      ∃ r2, alGet st2.runs rid = some r2 ∧
        (r2.status = r0.status ∨ r2.status = "running") := by
  intro fuel
  induction fuel with
  | zero =>
    intro n state cur log st res st2 h r0 hget
    cases cur <;> simp only [runLoop, Prod.mk.injEq] at h <;>
      exact ⟨r0, h.2 ▸ hget, .inl rfl⟩
  | succ fuel ih =>
    intro n state cur log st res st2 h r0 hget
    cases cur with
    | none =>
      simp only [runLoop, Prod.mk.injEq] at h
      exact ⟨r0, h.2 ▸ hget, .inl rfl⟩
    | some c =>
      simp only [runLoop] at h
      cases hnode : nodesGet g c with
      | none =>
        rw [hnode] at h
        exact ⟨r0, (Prod.mk.injEq .. ▸ h).2 ▸ hget, .inl rfl⟩
      | some node =>
        rw [hnode] at h
        simp only at h
        cases hstep : node state with
        | error e =>
          rw [hstep] at h
          exact ⟨r0, (Prod.mk.injEq .. ▸ h).2 ▸ hget, .inl rfl⟩
        | ok s1 =>
          rw [hstep] at h
          simp only at h
          cases hsumm : summarise_state s1 with
          | error e =>
            rw [hsumm] at h
            exact ⟨r0, (Prod.mk.injEq .. ▸ h).2 ▸ hget, .inl rfl⟩
          | ok summ =>
            rw [hsumm] at h
            simp only at h
            cases hupd : updateRunOpt r s1 (log ++ [⟨n + 1, c, 0, summ⟩]) "running" st with
            | error e =>
              rw [hupd] at h
              exact ⟨r0, (Prod.mk.injEq .. ▸ h).2 ▸ hget, .inl rfl⟩
            | ok st1 =>
              rw [hupd] at h
              simp only at h
              obtain ⟨r1, hr1, hr1s⟩ := updateRunOpt_status _ _ _ _ _ _ _ _ hupd hget
              by_cases hf : finishedFlag s1
              · rw [if_pos hf] at h
                refine ⟨r1, (Prod.mk.injEq .. ▸ h).2 ▸ hr1, ?_⟩
                cases hr1s with
                | inl hx => exact .inr hx
                | inr hx => exact .inl hx
              · rw [if_neg hf] at h
                obtain ⟨r2, hr2, hr2s⟩ := ih _ _ _ _ _ _ _ h r1 hr1
                refine ⟨r2, hr2, ?_⟩
                cases hr2s with
                | inl hx =>
                  cases hr1s with
                  | inl hy => exact .inr (hx.trans hy)
                  | inr hy => exact .inl (hx.trans hy)
                | inr hx => exact .inr hx

/-- If the final state's `_finished` flag is falsy, and either the state
had no pending `_next_node` on entry or at least one iteration was due,
then `_next_node` is absent from the final state. -/
theorem runLoop_no_next_node (g : Graph) (r : Option String) :
    ∀ fuel n state cur log st fs log2 status st2,
      runLoop g r fuel n state cur log st = (.ok (fs, log2, status), st2) →
      finishedFlag fs = false →
      (alGet state "_next_node" = none ∨ (∃ c, cur = some c ∧ 1 ≤ fuel)) →
      alGet fs "_next_node" = none := by
  intro fuel
  induction fuel with
  | zero =>
    intro n state cur log st fs log2 status st2 h _ hstart
    cases cur <;> simp only [runLoop, Prod.mk.injEq, Except.ok.injEq] at h <;>
      rw [← h.1.1] <;>
      rcases hstart with hs | ⟨c, _, hc⟩ <;> first | exact hs | omega
  | succ fuel ih =>
    intro n state cur log st fs log2 status st2 h hf hstart
    cases cur with
    | none =>
      simp only [runLoop, Prod.mk.injEq, Except.ok.injEq] at h
      rw [← h.1.1]
      rcases hstart with hs | ⟨c, hc, _⟩
      · exact hs
      · exact absurd hc (by simp)
    | some c =>
      obtain ⟨node, s1, summ, st1, _, _, _, _, hbr⟩ :=
        runLoop_succ_ok _ _ _ _ _ _ _ _ _ _ _ _ h
      cases hbr with
      | inl hb => rw [hb.2.1] at hf; rw [hb.1] at hf; exact absurd hf (by simp)
      | inr hb =>
        exact ih _ _ _ _ _ _ _ _ _ hb.2 hf (.inl (popNextNode_get s1))

/-- Every log entry of a successful run either predates the loop or names
an actual node of the graph (the one looked up and invoked at that step). -/
theorem runLoop_node_ids (g : Graph) (r : Option String) :
    ∀ fuel n state cur log st fs log2 status st2,
      runLoop g r fuel n state cur log st = (.ok (fs, log2, status), st2) →
      ∀ e, e ∈ log2 → e ∈ log ∨ ∃ s, e.node_id = .vStr s ∧ (alGet g.nodes s).isSome := by
  intro fuel
  induction fuel with
  | zero =>
    intro n state cur log st fs log2 status st2 h e he
    cases cur <;> simp only [runLoop, Prod.mk.injEq, Except.ok.injEq] at h <;>
      exact .inl (h.1.2.1 ▸ he)
  | succ fuel ih =>
    intro n state cur log st fs log2 status st2 h e he
    cases cur with
    | none =>
      simp only [runLoop, Prod.mk.injEq, Except.ok.injEq] at h
      exact .inl (h.1.2.1 ▸ he)
    | some c =>
      obtain ⟨node, s1, summ, st1, hnode, _, _, _, hbr⟩ :=
        runLoop_succ_ok _ _ _ _ _ _ _ _ _ _ _ _ h
      obtain ⟨s, hcs, hs⟩ := nodesGet_some g c node hnode
      cases hbr with
      | inl hb =>
        rw [hb.2.2.1] at he
        rcases List.mem_append.1 he with h1 | h1
        · exact .inl h1
        · refine .inr ⟨s, ?_, by simp [hs]⟩
          simp only [List.mem_singleton] at h1
          rw [h1, mkEntry, hcs]
      | inr hb =>
        rcases ih _ _ _ _ _ _ _ _ _ hb.2 e he with h1 | h1
        · rcases List.mem_append.1 h1 with h2 | h2
          · exact .inl h2
          · refine .inr ⟨s, ?_, by simp [hs]⟩
            simp only [List.mem_singleton] at h2
            rw [h2, mkEntry, hcs]
        · exact .inr h1

/-- The summary derivation reads only its four recognized keys, so it is
blind to the `_next_node` control key. -/
theorem summarise_state_erase_next (s : State) :
    summarise_state (alErase s "_next_node") = summarise_state s := by
  unfold summarise_state
  simp only [alGet_alErase, String.reduceEq, reduceIte]

/-- Characterization of the seeded working state: `iteration` defaults to
`0` only when absent, every other key is read through unchanged. -/
theorem alGet_seedIteration (S : State) (k : String) :
    alGet (seedIteration S) k =
      if k = "iteration" then some ((alGet S "iteration").getD (.vInt 0))
      else alGet S k := by
  unfold seedIteration
  cases hg : alGet S "iteration" with
  | some v =>
    by_cases hk : k = "iteration"
    · subst hk; simp [hg]
    · simp [hk]
  | none =>
    rw [alGet_append]
    by_cases hk : k = "iteration"
    · subst hk; simp [hg, alGet]
    · have : ¬("iteration" = k) := fun h => hk h.symm
      cases h2 : alGet S k <;> simp [hk, h2, alGet, this]

/-- One loop iteration under a pending string `_next_node` override and a
falsy `_finished` flag: the loop continues at the override target (the
edge table is not consulted) with the override key erased from the state. -/
theorem runLoop_override_step (g : Graph) (r : Option String) (fuel n : Nat) (state : State)
    (cur : Value) (log : List ExecutionLogEntry) (st st1 : Store) (node : Node) (s1 : State)
    (summ x : String)
    (hnode : nodesGet g cur = some node) (hstep : node state = .ok s1)
    (hsumm : summarise_state s1 = .ok summ)
    (hupd : updateRunOpt r s1 (log ++ [mkEntry (n + 1) cur summ]) "running" st = .ok st1)
    (hfin : finishedFlag s1 = false)
    (hnext : alGet s1 "_next_node" = some (.vStr x)) :
    runLoop g r (fuel + 1) n state (some cur) log st =
      runLoop g r fuel (n + 1) (alErase s1 "_next_node") (some (.vStr x))
        (log ++ [mkEntry (n + 1) cur summ]) st1 := by
  have hpop : popNextNode s1 = (alErase s1 "_next_node", some (.vStr x)) := by
    simp [popNextNode, hnext]
  simp only [runLoop, hnode, hstep, hsumm]
  rw [show (⟨n + 1, cur, 0, summ⟩ : ExecutionLogEntry) = mkEntry (n + 1) cur summ from rfl,
    hupd]
  simp only [hfin, Bool.false_eq_true, if_false, hpop]

/-- One loop iteration whose node comes back with a truthy `_finished`
flag: the loop stops at once with status `completed`; the state is
returned as the node left it and no pop of `_next_node` happens. -/
theorem runLoop_finished_step (g : Graph) (r : Option String) (fuel n : Nat) (state : State)
    (cur : Value) (log : List ExecutionLogEntry) (st st1 : Store) (node : Node) (s1 : State)
    (summ : String)
    (hnode : nodesGet g cur = some node) (hstep : node state = .ok s1)
    (hsumm : summarise_state s1 = .ok summ)
    (hupd : updateRunOpt r s1 (log ++ [mkEntry (n + 1) cur summ]) "running" st = .ok st1)
    (hfin : finishedFlag s1 = true) :
    runLoop g r (fuel + 1) n state (some cur) log st =
      (.ok (s1, log ++ [mkEntry (n + 1) cur summ], "completed"), st1) := by
  simp only [runLoop, hnode, hstep, hsumm]
  rw [show (⟨n + 1, cur, 0, summ⟩ : ExecutionLogEntry) = mkEntry (n + 1) cur summ from rfl,
    hupd]
  simp only [hfin, if_true]

/-- When no node of the graph ever introduces a control key (each node
keeps `_finished` and `_next_node` absent whenever they were absent on
entry), a successful loop started from a control-key-free state visits
exactly the static edge chain, and stops with `completed` exactly when
the chain exhausts within the budget. -/
theorem runLoop_chain (g : Graph) (r : Option String)
    (H : ∀ nid node, alGet g.nodes nid = some node → ∀ s s2, node s = .ok s2 →
      alGet s "_finished" = none → alGet s "_next_node" = none →
      alGet s2 "_finished" = none ∧ alGet s2 "_next_node" = none) :
    ∀ fuel n state c log st fs log2 status st2,
      alGet state "_finished" = none → alGet state "_next_node" = none →
      runLoop g r fuel n state (some (.vStr c)) log st = (.ok (fs, log2, status), st2) →
      log2.map (fun e => e.node_id) =
        log.map (fun e => e.node_id) ++ (chainIds g c fuel).map Value.vStr ∧
      status = (if chainStops g c fuel then "completed" else "max_steps_reached") := by
  intro fuel
  induction fuel with
  | zero =>
    intro n state c log st fs log2 status st2 hsf hsn h
    simp only [runLoop, Prod.mk.injEq, Except.ok.injEq] at h
    refine ⟨?_, h.1.2.2.symm⟩
    rw [← h.1.2.1]
    simp [chainIds]
  | succ fuel ih =>
    intro n state c log st fs log2 status st2 hsf hsn h
    obtain ⟨node, s1, summ, st1, hnode, hstep, hsumm, hupd, hbr⟩ :=
      runLoop_succ_ok _ _ _ _ _ _ _ _ _ _ _ _ h
    have hcs : alGet g.nodes c = some node := by
      obtain ⟨s, hx, hy⟩ := nodesGet_some g _ node hnode
      cases hx
      exact hy
    obtain ⟨hnf, hnn⟩ := H c node hcs state s1 hstep hsf hsn
    have hfin : finishedFlag s1 = false := by simp [finishedFlag, hnf, truthy]
    cases hbr with
    | inl hb => rw [hb.1] at hfin; simp at hfin
    | inr hb =>
      have hpop : popNextNode s1 = (s1, none) := by simp [popNextNode, hnn]
      have hnc : nextCurrent g (.vStr c) s1 = (edgeStep g c).map Value.vStr := by
        simp [nextCurrent, hpop, edgesGet, edgeStep]
      rw [hnc] at hb
      simp only [hpop] at hb
      cases hes : edgeStep g c with
      | none =>
        rw [hes] at hb
        simp only [Option.map_none'] at hb
        have hb2 := hb.2
        rw [show (Option.none : Option Value) = (none : Option Value) from rfl] at hb2
        simp only [runLoop, Prod.mk.injEq, Except.ok.injEq] at hb2
        constructor
        · rw [← hb2.1.2.1]
          simp [chainIds, hes, mkEntry]
        · rw [← hb2.1.2.2, chainStops]
          simp [hes]
      | some c2 =>
        rw [hes] at hb
        simp only [Option.map_some'] at hb
        obtain ⟨hlog, hstatus⟩ := ih _ _ _ _ _ _ _ _ _ hnf hnn hb.2
        constructor
        · rw [hlog]
          simp [chainIds, hes, mkEntry]
        · rw [hstatus, chainStops]
          simp [hes]

/-- A successful `run_graph` call decomposes into a successful loop run
followed by a successful final persist. -/
theorem run_graph_ok_inv (g : Graph) (S : State) (r : Option String) (st : Store)
    (fs : State) (log : List ExecutionLogEntry) (st2 : Store)
    (h : run_graph g S r st = (.ok (fs, log), st2)) :
    ∃ status st1, runLoop g r g.max_steps 0 (seedIteration S)
        (some (.vStr g.start_node_id)) [] st = (.ok (fs, log, status), st1) ∧
      updateRunOpt r fs log status st1 = .ok st2 := by
  simp only [run_graph] at h
  cases hr : runLoop g r g.max_steps 0 (seedIteration S)
      (some (.vStr g.start_node_id)) [] st with
  | mk res st1 =>
    rw [hr] at h
    cases res with
    | error e => simp at h
    | ok t =>
      obtain ⟨s3, log3, status3⟩ := t
      simp only at h
      cases hu : updateRunOpt r s3 log3 status3 st1 with
      | error e => rw [hu] at h; simp at h
      | ok st4 =>
        rw [hu] at h
        simp only [Prod.mk.injEq, Except.ok.injEq] at h
        obtain ⟨⟨h1, h2⟩, h3⟩ := h
        subst h1
        subst h2
        subst h3
        exact ⟨status3, st1, rfl, hu⟩

/-- A raising `run_graph` call leaves the store exactly as the loop left
it: the final success persist is never executed on the error path. -/
theorem run_graph_error_inv (g : Graph) (S : State) (r : Option String) (st : Store)
    (e : String) (st2 : Store) (h : run_graph g S r st = (.error e, st2)) :
    ∃ res, runLoop g r g.max_steps 0 (seedIteration S)
        (some (.vStr g.start_node_id)) [] st = (res, st2) := by
  simp only [run_graph] at h
  cases hr : runLoop g r g.max_steps 0 (seedIteration S)
      (some (.vStr g.start_node_id)) [] st with
  | mk res st1 =>
    rw [hr] at h
    cases res with
    | error e2 =>
      simp only [Prod.mk.injEq] at h
      exact ⟨.error e2, by rw [h.2]⟩
    | ok t =>
      obtain ⟨s3, log3, status3⟩ := t
      simp only at h
      cases hu : updateRunOpt r s3 log3 status3 st1 with
      | error e2 =>
        rw [hu] at h
        simp only [Prod.mk.injEq] at h
        exact ⟨.ok (s3, log3, status3), by rw [h.2]⟩
      | ok st4 => rw [hu] at h; simp at h

/-! ### Injectivity of the decimal run-id representation -/

theorem toDigitsCore_append (b : Nat) :
    ∀ (f n : Nat) (acc : List Char),
      Nat.toDigitsCore b f n acc = Nat.toDigitsCore b f n [] ++ acc := by
  intro f
  induction f with
  | zero => intro n acc; simp [Nat.toDigitsCore]
  | succ f ih =>
    intro n acc
    simp only [Nat.toDigitsCore]
    by_cases h : n / b = 0
    · simp [h]
    · rw [if_neg h, if_neg h, ih (n / b) [Nat.digitChar (n % b)],
        ih (n / b) (Nat.digitChar (n % b) :: acc)]
      simp

theorem charDigit_digitChar (m : Nat) (h : m < 10) :
    charDigit (Nat.digitChar m) = m := by
  interval_cases m <;> decide

theorem decode_toDigitsCore : ∀ (f n : Nat), n < f →
    decodeDigits (Nat.toDigitsCore 10 f n []) = n := by
  intro f
  induction f with
  | zero => intro n h; omega
  | succ f ih =>
    intro n h
    simp only [Nat.toDigitsCore]
    by_cases hd : n / 10 = 0
    · rw [if_pos hd]
      have h10 : n < 10 := by omega
      have hmod : n % 10 = n := Nat.mod_eq_of_lt h10
      simp [decodeDigits, hmod]
      exact charDigit_digitChar n h10
    · rw [if_neg hd]
      rw [toDigitsCore_append]
      have hpos : 0 < n := by omega
      have hlt : n / 10 < f := by
        have := Nat.div_lt_self hpos (by norm_num : 1 < 10)
        omega
      have hsplit : decodeDigits (Nat.toDigitsCore 10 f (n / 10) [] ++
          [Nat.digitChar (n % 10)]) =
          decodeDigits (Nat.toDigitsCore 10 f (n / 10) []) * 10 +
            charDigit (Nat.digitChar (n % 10)) := by
        simp [decodeDigits, List.foldl_append]
      rw [hsplit, ih _ hlt, charDigit_digitChar _ (Nat.mod_lt n (by norm_num))]
      omega

theorem decode_repr (n : Nat) : decodeDigits (Nat.repr n).data = n := by
  show decodeDigits (List.asString (Nat.toDigitsCore 10 (n + 1) n [])).data = n
  exact decode_toDigitsCore (n + 1) n (Nat.lt_succ_self n)

theorem mkRunId_inj (m n : Nat) (h : mkRunId m = mkRunId n) : m = n := by
  unfold mkRunId at h
  have hd := congrArg String.data h
  rw [String.data_append, String.data_append] at hd
  have hr := List.append_cancel_left hd
  have := congrArg decodeDigits hr
  rwa [decode_repr, decode_repr] at this

/-! ### Run store lifetime invariant -/

theorem alGet_eq_none_iff {α : Type} (l : List (String × α)) (k : String) :
    alGet l k = none ↔ k ∉ l.map Prod.fst := by
  induction l with
  | nil => simp [alGet]
  | cons p rest ih =>
    obtain ⟨k1, v1⟩ := p
    by_cases h : k1 = k
    · subst h
      simp [alGet]
    · have hx : ¬(k = k1) := fun hh => h hh.symm
      simp only [alGet, if_neg h, List.map_cons, List.mem_cons, ih]
      constructor
      · intro hnm hm
        cases hm with
        | inl hh => exact hx hh
        | inr hh => exact hnm hh
      · intro hnm hm
        exact hnm (Or.inr hm)

theorem storeInv_store0 : storeInv store0 := by
  simp [storeInv, keysOf, store0]

theorem storeInv_fresh (st : Store) (hinv : storeInv st) :
    alGet st.runs (mkRunId (st.runs.length + 1)) = none := by
  rw [alGet_eq_none_iff]
  intro hmem
  rw [show st.runs.map Prod.fst = keysOf st from rfl, hinv] at hmem
  obtain ⟨m, hm, he⟩ := List.mem_map.1 hmem
  have := mkRunId_inj _ _ he
  have hlt := List.mem_range'_1.1 hm
  omega

theorem storeInv_applyOp (st : Store) (op : StoreOp) (hinv : storeInv st) :
    storeInv (applyOp st op) := by
  cases op with
  | createOp gid init =>
    have hfresh := storeInv_fresh st hinv
    have hfresh2 : alGet st.runs ("run_" ++ Nat.repr (st.runs.length + 1)) = none := hfresh
    simp only [applyOp, create_run]
    unfold storeInv keysOf
    simp only
    rw [alSet_of_not_mem _ _ _ hfresh2]
    simp only [List.map_append, List.length_append]
    rw [show (st.runs.map Prod.fst) = keysOf st from rfl, hinv]
    have hc : List.range' 1 (st.runs.length + 1) =
        List.range' 1 st.runs.length ++ [1 + st.runs.length] := List.range'_1_concat 1 _
    simp only [List.length_singleton, hc, List.map_append, List.map_singleton]
    congr 1
    simp [mkRunId, Nat.add_comm]
  | updateOp rid s l stat =>
    simp only [applyOp]
    cases hu : update_run rid s l stat st with
    | error e => exact hinv
    | ok st2 =>
      unfold update_run at hu
      cases hg : alGet st.runs rid with
      | none => rw [hg] at hu; simp at hu
      | some r =>
        rw [hg] at hu
        simp only [Except.ok.injEq] at hu
        subst hu
        have hmap := map_fst_alSet_of_mem st.runs rid
          ({ r with state := s, log := l, status := stat, updated_at := st.clock }) r hg
        have hlen := congrArg List.length hmap
        simp only [List.length_map] at hlen
        unfold storeInv keysOf
        simp only
        rw [hmap, hlen]
        exact hinv

theorem createdIds_nodup_aux :
    ∀ (ops : List StoreOp) (st : Store), storeInv st →
      (createdIds st ops).Nodup ∧ ∀ x ∈ createdIds st ops, x ∉ keysOf st := by
  intro ops
  induction ops with
  | nil => intro st _; simp [createdIds]
  | cons op rest ih =>
    intro st hinv
    have hinv2 := storeInv_applyOp st op hinv
    obtain ⟨hnd, hnk⟩ := ih _ hinv2
    cases op with
    | createOp gid init =>
      have hfresh := storeInv_fresh st hinv
      have hid : (create_run gid init st).1 = mkRunId (st.runs.length + 1) := rfl
      have hfresh2 : alGet st.runs ("run_" ++ Nat.repr (st.runs.length + 1)) = none := hfresh
      have hkeys2 : keysOf (applyOp st (.createOp gid init)) =
          keysOf st ++ [mkRunId (st.runs.length + 1)] := by
        simp only [applyOp, create_run, keysOf]
        rw [alSet_of_not_mem _ _ _ hfresh2]
        simp [mkRunId]
      constructor
      · simp only [createdIds, List.nodup_cons]
        refine ⟨?_, hnd⟩
        intro hmem
        have := hnk _ hmem
        rw [hkeys2] at this
        simp [hid] at this
      · intro x hx
        simp only [createdIds, List.mem_cons] at hx
        cases hx with
        | inl he =>
          rw [he, hid]
          exact (alGet_eq_none_iff st.runs _).1 hfresh
        | inr he =>
          have := hnk _ he
          rw [hkeys2] at this
          intro hmem
          exact this (List.mem_append_left _ hmem)
    | updateOp rid s l stat =>
      have hkeys2 : keysOf (applyOp st (.updateOp rid s l stat)) = keysOf st := by
        simp only [applyOp]
        cases hu : update_run rid s l stat st with
        | error e => rfl
        | ok st2 =>
          unfold update_run at hu
          cases hg : alGet st.runs rid with
          | none => rw [hg] at hu; simp at hu
          | some r =>
            rw [hg] at hu
            simp only [Except.ok.injEq] at hu
            subst hu
            unfold keysOf
            simp only
            exact map_fst_alSet_of_mem _ _ _ _ hg
      refine ⟨hnd, ?_⟩
      intro x hx
      have := hnk x hx
      rwa [hkeys2] at this

/-! ### Claim theorems -/

/-- C1: for every graph, initial state, optional run id and store, a
(necessarily terminating — `run_graph` is a total function of this
development) successful execution performs at most `max_steps` loop-body
iterations: its log, which gains exactly one entry per node invocation,
has at most `max_steps` entries. -/
theorem C1_step_budget (g : Graph) (S : State) (r : Option String) (st : Store)
    (fs : State) (log : List ExecutionLogEntry) (st2 : Store)
    (h : run_graph g S r st = (.ok (fs, log), st2)) :
    log.length ≤ g.max_steps := by
  obtain ⟨status, st1, hr, _⟩ := run_graph_ok_inv g S r st fs log st2 h
  have := runLoop_length_le g r g.max_steps 0 (seedIteration S)
    (some (.vStr g.start_node_id)) [] st fs log status st1 hr
  simpa using this

theorem C1_witness : exLogA.length ≤ exGraphA.max_steps :=
  C1_step_budget exGraphA [] none store0 exFsA exLogA store0 rfl

/-- C2 (amended): if a node returns a state carrying `_next_node = X`
whose `_finished` flag is NOT truthy, the loop continues at `X` with the
key erased, ignoring the edge table (first conjunct); whenever a
successful run with a positive budget ends without a truthy `_finished`
flag, `_next_node` is absent from the returned state (second conjunct);
and the log-entry summary derivation is blind to the `_next_node` entry
(third conjunct). When the same state also has a truthy `_finished`, the
override is ignored and survives in the returned state (see the
counterexample). -/
theorem C2_next_node_override :
    (∀ (g : Graph) (r : Option String) (fuel n : Nat) (state : State) (cur : Value)
      (log : List ExecutionLogEntry) (st st1 : Store) (node : Node) (s1 : State)
      (summ x : String),
      nodesGet g cur = some node → node state = .ok s1 →
      summarise_state s1 = .ok summ →
      updateRunOpt r s1 (log ++ [mkEntry (n + 1) cur summ]) "running" st = .ok st1 →
      finishedFlag s1 = false → alGet s1 "_next_node" = some (.vStr x) →
      runLoop g r (fuel + 1) n state (some cur) log st =
        runLoop g r fuel (n + 1) (alErase s1 "_next_node") (some (.vStr x))
          (log ++ [mkEntry (n + 1) cur summ]) st1) ∧
    (∀ (g : Graph) (S : State) (r : Option String) (st : Store) (fs : State)
      (log : List ExecutionLogEntry) (st2 : Store),
      run_graph g S r st = (.ok (fs, log), st2) → 0 < g.max_steps →
      finishedFlag fs = false → alGet fs "_next_node" = none) ∧
    (∀ s : State, summarise_state (alErase s "_next_node") = summarise_state s) := by
  refine ⟨?_, ?_, summarise_state_erase_next⟩
  · intro g r fuel n state cur log st st1 node s1 summ x h1 h2 h3 h4 h5 h6
    exact runLoop_override_step g r fuel n state cur log st st1 node s1 summ x
      h1 h2 h3 h4 h5 h6
  · intro g S r st fs log st2 h hmax hfin
    obtain ⟨status, st1, hr, _⟩ := run_graph_ok_inv g S r st fs log st2 h
    exact runLoop_no_next_node g r g.max_steps 0 (seedIteration S)
      (some (.vStr g.start_node_id)) [] st fs log status st1 hr hfin
      (.inr ⟨.vStr g.start_node_id, rfl, hmax⟩)

/-- C2 counterexample to the claim as stated: in `exGraphC` the start
node returns a state with `_next_node = "b"` (together with a truthy
`_finished`); the executor does not route to `"b"` — the log shows only
node `a` — and `_next_node` is present in the state returned to the
caller, not absent. -/
theorem C2_counterexample :
    ∃ fs log st2, run_graph exGraphC [] none store0 = (.ok (fs, log), st2) ∧
      alGet fs "_next_node" = some (.vStr "b") ∧
      log.map (fun e => e.node_id) = [.vStr "a"] :=
  ⟨_, _, _, rfl, rfl, rfl⟩

theorem C2_witness :
    runLoop exGraphB none 3 0 [("iteration", .vInt 0)] (some (.vStr "loop")) [] store0 =
      runLoop exGraphB none 2 1
        (alErase [("iteration", .vInt 0), ("_next_node", .vStr "loop")] "_next_node")
        (some (.vStr "loop")) [mkEntry 1 (.vStr "loop") "iteration=0"] store0 :=
  C2_next_node_override.1 exGraphB none 2 0 [("iteration", .vInt 0)] (.vStr "loop") []
    store0 store0 exNodeLoop [("iteration", .vInt 0), ("_next_node", .vStr "loop")]
    "iteration=0" "loop" rfl rfl rfl rfl rfl rfl

/-- C3: a node invocation that comes back with a truthy `_finished` flag
makes the loop stop at once: the run's log ends with that node's entry
(no further node is invoked) and the status is `completed`. -/
theorem C3_finished_stops (g : Graph) (r : Option String) (fuel n : Nat) (state : State)
    (cur : Value) (log : List ExecutionLogEntry) (st st1 : Store) (node : Node) (s1 : State)
    (summ : String)
    (hnode : nodesGet g cur = some node) (hstep : node state = .ok s1)
    (hsumm : summarise_state s1 = .ok summ)
    (hupd : updateRunOpt r s1 (log ++ [mkEntry (n + 1) cur summ]) "running" st = .ok st1)
    (hfin : finishedFlag s1 = true) :
    runLoop g r (fuel + 1) n state (some cur) log st =
      (.ok (s1, log ++ [mkEntry (n + 1) cur summ], "completed"), st1) :=
  runLoop_finished_step g r fuel n state cur log st st1 node s1 summ
    hnode hstep hsumm hupd hfin

theorem C3_witness :
    runLoop exGraphE none 5 0 [("iteration", .vInt 0)] (some (.vStr "a")) [] store0 =
      (.ok ([("iteration", .vInt 0), ("_finished", .vBool true)],
        [mkEntry 1 (.vStr "a") "iteration=0"], "completed"), store0) :=
  C3_finished_stops exGraphE none 4 0 [("iteration", .vInt 0)] (.vStr "a") [] store0 store0
    exNodeFinish [("iteration", .vInt 0), ("_finished", .vBool true)] "iteration=0"
    rfl rfl rfl rfl rfl

/-- C4: when every node of the graph keeps the two control keys absent
(whenever they were absent on entry) and the initial state carries
neither, a successful execution invokes exactly the nodes of the static
edge chain from the start node — each step's successor is
`edges.get(current)` — and the loop status is `completed` precisely when
a node without outgoing edge is reached within the budget. -/
theorem C4_static_edges (g : Graph) (r : Option String) (S : State) (st : Store)
    (H : ∀ nid node, alGet g.nodes nid = some node → ∀ s s2, node s = .ok s2 →
      alGet s "_finished" = none → alGet s "_next_node" = none →
      alGet s2 "_finished" = none ∧ alGet s2 "_next_node" = none)
    (hS1 : alGet S "_finished" = none) (hS2 : alGet S "_next_node" = none) :
    (∀ fs log st2, run_graph g S r st = (.ok (fs, log), st2) →
      log.map (fun e => e.node_id) =
        (chainIds g g.start_node_id g.max_steps).map Value.vStr) ∧
    (∀ fs log status st1,
      runLoop g r g.max_steps 0 (seedIteration S) (some (.vStr g.start_node_id)) [] st =
        (.ok (fs, log, status), st1) →
      status = (if chainStops g g.start_node_id g.max_steps then "completed"
        else "max_steps_reached")) := by
  have hseed1 : alGet (seedIteration S) "_finished" = none := by
    rw [alGet_seedIteration]
    simp [hS1]
  have hseed2 : alGet (seedIteration S) "_next_node" = none := by
    rw [alGet_seedIteration]
    simp [hS2]
  constructor
  · intro fs log st2 h
    obtain ⟨status, st1, hr, _⟩ := run_graph_ok_inv g S r st fs log st2 h
    have := runLoop_chain g r H g.max_steps 0 (seedIteration S) g.start_node_id [] st
      fs log status st1 hseed1 hseed2 hr
    simpa using this.1
  · intro fs log status st1 hr
    exact (runLoop_chain g r H g.max_steps 0 (seedIteration S) g.start_node_id [] st
      fs log status st1 hseed1 hseed2 hr).2

theorem C4_witness :
    exLogD.map (fun e => e.node_id) = (chainIds exGraphD "a" 10).map Value.vStr := by
  have hH : ∀ nid node, alGet exGraphD.nodes nid = some node → ∀ s s2, node s = .ok s2 →
      alGet s "_finished" = none → alGet s "_next_node" = none →
      alGet s2 "_finished" = none ∧ alGet s2 "_next_node" = none := by
    intro nid node hget s s2 hrun h1 h2
    have hnode : node = exNodeX := by
      simp only [exGraphD, alGet] at hget
      by_cases ha : "a" = nid
      · simp [ha] at hget
        exact hget.symm
      · simp only [if_neg ha] at hget
        by_cases hb : "b" = nid
        · simp [hb] at hget
          exact hget.symm
        · simp [hb] at hget
    subst hnode
    simp only [exNodeX, Except.ok.injEq] at hrun
    subst hrun
    rw [alGet_alSet, alGet_alSet]
    constructor <;> simp [h1, h2]
  exact (C4_static_edges exGraphD none [] store0 hH rfl rfl).1 exFsD exLogD store0 rfl

/-- C5: exiting the loop because the budget is exhausted while a next
node is still pending yields status `max_steps_reached` (first conjunct:
the `step = max_steps`, `current ≠ None` exit); concretely, scenario B —
a single self-looping node under budget 3 — produces exactly 3 log
entries and a stored terminal status `max_steps_reached`. -/
theorem C5_max_steps :
    (∀ (g : Graph) (r : Option String) (n : Nat) (state : State) (cur : Value)
      (log : List ExecutionLogEntry) (st : Store),
      runLoop g r 0 n state (some cur) log st =
        (.ok (state, log, "max_steps_reached"), st)) ∧
    (∃ fs log st2, run_graph exGraphB [] (some "run_1") exStoreB = (.ok (fs, log), st2) ∧
      log.length = 3 ∧ ∃ rec2, alGet st2.runs "run_1" = some rec2 ∧
        rec2.status = "max_steps_reached" ∧ rec2.log.length = 3) :=
  ⟨fun _ _ _ _ _ _ _ => rfl, ⟨_, _, _, rfl, rfl, _, rfl, rfl, rfl⟩⟩

/-- C6: an N-step successful run logs step numbers exactly `1..N` in
order, and every entry's node id names the graph node that was looked up
and invoked at that step. -/
theorem C6_log_steps (g : Graph) (S : State) (r : Option String) (st : Store)
    (fs : State) (log : List ExecutionLogEntry) (st2 : Store)
    (h : run_graph g S r st = (.ok (fs, log), st2)) :
    log.map (fun e => e.step) = List.range' 1 log.length ∧
    ∀ e ∈ log, ∃ s, e.node_id = .vStr s ∧ (alGet g.nodes s).isSome := by
  obtain ⟨status, st1, hr, _⟩ := run_graph_ok_inv g S r st fs log st2 h
  constructor
  · exact runLoop_steps g r g.max_steps 0 (seedIteration S)
      (some (.vStr g.start_node_id)) [] st fs log status st1 rfl rfl hr
  · intro e he
    rcases runLoop_node_ids g r g.max_steps 0 (seedIteration S)
      (some (.vStr g.start_node_id)) [] st fs log status st1 hr e he with h1 | h1
    · simp at h1
    · exact h1

theorem C6_witness : exLogA.map (fun e => e.step) = List.range' 1 exLogA.length :=
  (C6_log_steps exGraphA [] none store0 exFsA exLogA store0 rfl).1

/-- C7: the caller's mapping is never written (the embedding works on the
value `seedIteration S` derived from a copy, and `run_graph` depends on
the caller's mapping only through it); the working copy's `iteration` key
is seeded to `0` exactly when it is absent in `S`, an existing value is
preserved, and every other key reads through unchanged. -/
theorem C7_seed_iteration :
    (∀ S : State, alGet (seedIteration S) "iteration" =
      some ((alGet S "iteration").getD (.vInt 0))) ∧
    (∀ (S : State) (k : String), k ≠ "iteration" →
      alGet (seedIteration S) k = alGet S k) ∧
    (∀ (g : Graph) (S T : State) (r : Option String) (st : Store),
      seedIteration S = seedIteration T → run_graph g S r st = run_graph g T r st) := by
  refine ⟨?_, ?_, ?_⟩
  · intro S
    rw [alGet_seedIteration]
    simp
  · intro S k hk
    rw [alGet_seedIteration, if_neg hk]
  · intro g S T r st h
    simp only [run_graph, h]

theorem C7_witness :
    alGet (seedIteration [("x", .vInt 5)]) "x" = alGet [("x", .vInt 5)] "x" ∧
    alGet (seedIteration [("iteration", .vInt 7)]) "iteration" = some (.vInt 7) :=
  ⟨C7_seed_iteration.2.1 [("x", .vInt 5)] "x" (by decide),
   by have h := C7_seed_iteration.1 [("iteration", .vInt 7)]; rw [h]; rfl⟩

/-- C8: when a run whose stored status is `created` executes and
`run_graph` raises, the failure propagates as the error result, the
final success persist never happens, and the stored run keeps a
non-success status — `created` (nothing persisted yet) or `running` (the
in-loop persist) — never `completed` or `max_steps_reached`. -/
theorem C8_failure_preserves_status (g : Graph) (S : State) (rid : String) (st : Store)
    (e : String) (st2 : Store) (r0 : RunRecord)
    (hget : alGet st.runs rid = some r0) (hstatus : r0.status = "created")
    (h : run_graph g S (some rid) st = (.error e, st2)) :
    ∃ r2, alGet st2.runs rid = some r2 ∧
      (r2.status = "created" ∨ r2.status = "running") := by
  obtain ⟨res, hr⟩ := run_graph_error_inv g S (some rid) st e st2 h
  obtain ⟨r2, hr2, hst⟩ := runLoop_store_status g (some rid) rid g.max_steps 0
    (seedIteration S) (some (.vStr g.start_node_id)) [] st res st2 hr r0 hget
  refine ⟨r2, hr2, ?_⟩
  rcases hst with h1 | h1
  · exact .inl (h1.trans hstatus)
  · exact .inr h1

theorem C8_witness :
    ∃ r2, alGet exStoreF.runs "run_1" = some r2 ∧
      (r2.status = "created" ∨ r2.status = "running") :=
  C8_failure_preserves_status exGraphF [] "run_1" exStoreF "RuntimeError: node failure"
    exStoreF ⟨"run_1", "gF", [], [], "created", 0, 0⟩ rfl rfl rfl

/-- C9: every `create_run` inserts, under the freshly minted identifier,
a record with status `created`, empty log, exactly the given initial
state (not the executor's working copy) and equal created/updated
timestamps; and across any history of store operations from process
start, the identifiers returned by the `create_run` calls are pairwise
distinct. -/
theorem C9_create_run :
    (∀ (gid : String) (init : State) (st : Store), ∃ r,
      alGet (create_run gid init st).2.runs (create_run gid init st).1 = some r ∧
      r.status = "created" ∧ r.log = [] ∧ r.state = init ∧
      r.created_at = r.updated_at ∧ r.graph_id = gid ∧
      r.id = (create_run gid init st).1) ∧
    (∀ ops : List StoreOp, (createdIds store0 ops).Nodup) := by
  constructor
  · intro gid init st
    refine ⟨createdRecord gid init st, ?_, rfl, rfl, rfl, rfl, rfl, rfl⟩
    simp only [create_run, createdRecord]
    rw [alGet_alSet]
    simp
  · intro ops
    exact (createdIds_nodup_aux ops store0 storeInv_store0).1

/-- C10: a truthy `_finished` flag already present in the initial state
does not make the run terminate immediately: the flag is only examined
after a node invocation, so under a positive budget a successful run
still invokes the start node, and its log opens with the start node's
entry. -/
theorem C10_initial_finished (g : Graph) (S : State) (r : Option String) (st : Store)
    (fs : State) (log : List ExecutionLogEntry) (st2 : Store)
    (_hfin : finishedFlag S = true) (hmax : 1 ≤ g.max_steps)
    (h : run_graph g S r st = (.ok (fs, log), st2)) :
    1 ≤ log.length ∧ ∃ e2 tail, log = e2 :: tail ∧
      e2.node_id = .vStr g.start_node_id := by
  obtain ⟨status, st1, hr, _⟩ := run_graph_ok_inv g S r st fs log st2 h
  obtain ⟨fuel, hfuel⟩ : ∃ fuel, g.max_steps = fuel + 1 := ⟨g.max_steps - 1, by omega⟩
  rw [hfuel] at hr
  obtain ⟨node, s1, summ, st1x, hnode, hstep, hsumm, hupd, hbr⟩ :=
    runLoop_succ_ok _ _ _ _ _ _ _ _ _ _ _ _ hr
  cases hbr with
  | inl hb =>
    rw [hb.2.2.1]
    exact ⟨by simp, mkEntry 1 (.vStr g.start_node_id) summ, [], by simp, rfl⟩
  | inr hb =>
    obtain ⟨tail, ht⟩ := runLoop_log_extends _ _ _ _ _ _ _ _ _ _ _ _ hb.2
    rw [ht]
    refine ⟨by simp, mkEntry 1 (.vStr g.start_node_id) summ, tail, by simp, rfl⟩

theorem C10_witness : 1 ≤ exLog10.length :=
  (C10_initial_finished exGraphA [("_finished", .vBool true)] none store0
    exFs10 exLog10 store0 rfl (by decide) rfl).1

end Engine
